import Mathlib

/-!
Verification of the bzerker BOXES reinforcement-learning core
(`src/bzerker.c`) against its natural-language specification.

The C code is shallowly embedded: the dense weight table (`float *states`,
indexed by `maxactions * state + action`) becomes a total function
`ℤ → ℚ`, C `int`/`long` scalars become `ℤ`, C `float` quantities become
`ℚ`, and the one source of randomness (`bz__random`, which computes
`max * (random() / RAND_MAX)`) is modelled by passing the ratio
`random() / RAND_MAX` in as an explicit argument `rand01 : ℚ`.  The C
library function `pow` is likewise passed in as an explicit function
argument `powfn : ℚ → ℚ → ℚ`.  Note that in `bz_nextaction` the C
variable `myrandom` is declared `int`, so both the initial draw and every
subtractive update are truncated toward zero; this is modelled by
`itrunc`.
-/

/-- Truncation of a rational toward zero, as C performs when converting a
floating-point value to `int`. -/
def itrunc (q : ℚ) : ℤ := if 0 ≤ q then ⌊q⌋ else ⌈q⌉

/-- The brain structure of `bzerker.c` (`bz_brain`): a dense table of
per-(state, action) token counts.  The flat C array `float *states` is
modelled as a total function from flat indices to rationals. -/
structure bz_brain where
  braintype : ℤ
  maxstates : ℤ
  maxactions : ℤ
  starting_tokens : ℤ
  states : ℤ → ℚ

/-- The constant `BZ_BRAIN_QUANTIZED` from `bzerker.h`. -/
def BZ_BRAIN_QUANTIZED : ℤ := 0

/-- `bz_newbrain` from `bzerker.c` (lines 271-303).  The C code calls
`exit(1)` on an unknown brain type, modelled here as `none`.  It performs
no validation of `max_states`/`max_actions`: the init loops simply write
`tokens_per_node` to every flat index `istate * max_actions + iaction`
with `0 ≤ istate < max_states` and `0 ≤ iaction < max_actions`, i.e. to
exactly the indices in `[0, max_states * max_actions)` when both counts
are positive, and to nothing otherwise.  Never-written (uninitialized
malloc) cells are modelled as holding `0`. -/
def bz_newbrain (braintype max_states max_actions tokens_per_node : ℤ) :
    Option bz_brain :=
  if braintype ≠ BZ_BRAIN_QUANTIZED then none
  else some
    { braintype := 0
      maxstates := max_states
      maxactions := max_actions
      starting_tokens := tokens_per_node
      states := fun idx =>
        if 0 < max_states ∧ 0 < max_actions ∧ 0 ≤ idx ∧
            idx < max_states * max_actions
        then (tokens_per_node : ℚ) else 0 }

/-- The legality test used throughout `bz_nextaction`:
`mask == NULL || mask[i] >= 0`. -/
def legalAt (mask : Option (ℕ → ℤ)) (i : ℕ) : Bool :=
  match mask with
  | none => true
  | some f => decide (0 ≤ f i)

/-- Flat index of action `i` in the row of `cur_state`:
`brain->maxactions * cur_state + i`. -/
def bz_rowIdx (brain : bz_brain) (cur_state : ℤ) (i : ℕ) : ℤ :=
  brain.maxactions * cur_state + i

/-- The `maxacts` count of `bz_nextaction` (lines 340-344): the number of
loop indices `i < maxactions` that the mask permits. -/
def bz_maxacts (brain : bz_brain) (mask : Option (ℕ → ℤ)) : ℕ :=
  ((Finset.range brain.maxactions.toNat).filter
    (fun i => legalAt mask i = true)).card

/-- The `sumup` accumulation of `bz_nextaction` (lines 347-354): the sum
of the current state's weights over mask-permitted indices. -/
def bz_sumup (brain : bz_brain) (cur_state : ℤ) (mask : Option (ℕ → ℤ)) : ℚ :=
  ∑ i ∈ Finset.range brain.maxactions.toNat,
    if legalAt mask i = true
    then brain.states (bz_rowIdx brain cur_state i) else 0

/-- One summand of the exponentiated total and of the exponentiated
sampling walk (lines 358-360 and 385-386):
`pow(states[row + i] / (sumup / maxacts), expval)`. -/
def bz_expterm (powfn : ℚ → ℚ → ℚ) (brain : bz_brain) (cur_state : ℤ)
    (sumup : ℚ) (macts : ℕ) (expval : ℚ) (i : ℕ) : ℚ :=
  powfn (brain.states (bz_rowIdx brain cur_state i) / (sumup / (macts : ℚ)))
    expval

/-- The `sumup2` accumulation of `bz_nextaction` (lines 355-363), computed
only when `evse` is non-NULL. -/
def bz_sumup2 (powfn : ℚ → ℚ → ℚ) (brain : bz_brain) (cur_state : ℤ)
    (mask : Option (ℕ → ℤ)) (sumup : ℚ) (macts : ℕ) (expval : ℚ) : ℚ :=
  ∑ i ∈ Finset.range brain.maxactions.toNat,
    if legalAt mask i = true
    then bz_expterm powfn brain cur_state sumup macts expval i else 0

/-- The underflow refill loop of `bz_nextaction` (lines 372-376): every
mask-permitted cell of the current state's row is set to
`starting_tokens`; all other cells are untouched. -/
def bz_refill (brain : bz_brain) (cur_state : ℤ) (mask : Option (ℕ → ℤ)) :
    bz_brain :=
  { brain with states := fun idx =>
      if ∃ i ∈ Finset.range brain.maxactions.toNat,
          legalAt mask i = true ∧ idx = bz_rowIdx brain cur_state i
      then (brain.starting_tokens : ℚ) else brain.states idx }

/-- `bz__random` from `bzerker.c` (lines 517-522):
`max * (random() / RAND_MAX)`, with the ratio `random() / RAND_MAX`
supplied as `rand01`. -/
def bz__random (rand01 : ℚ) (max : ℚ) : ℚ := max * rand01

/-- The sampling loop of `bz_nextaction` (lines 383-389 / 392-397): walk
indices `i, i+1, ...` for `k` steps; at each mask-permitted index
subtract `t i` from the integer `myrandom` (C truncates the float result
back to `int`) and return the index as soon as the result is `≤ 0`.
`none` models falling out of the loop. -/
def bz_walk (t : ℕ → ℚ) (mask : Option (ℕ → ℤ)) : ℤ → ℕ → ℕ → Option ℕ
  | _, _, 0 => none
  | m, i, k + 1 =>
    if legalAt mask i = true then
      if itrunc ((m : ℚ) - t i) ≤ 0 then some i
      else bz_walk t mask (itrunc ((m : ℚ) - t i)) (i + 1) k
    else bz_walk t mask m (i + 1) k

/-- The value returned by the sampling phase: the walk's hit if any,
otherwise the trailing `return 0` of `bz_nextaction` (line 399). -/
def bz_pick (t : ℕ → ℚ) (mask : Option (ℕ → ℤ)) (m0 : ℤ) (n : ℕ) : ℤ :=
  ((bz_walk t mask m0 0 n).getD 0 : ℕ)

/-- The `expval` assignment of `bz_nextaction` (line 346):
`(evse == NULL) ? 1.0 : *evse`. -/
def bz_expvalOf (evse : Option ℚ) : ℚ :=
  match evse with
  | none => 1
  | some e => e

/-- `bz_nextaction` from `bzerker.c` (lines 321-400).  Returns the chosen
action index together with the (possibly refilled) brain and the
(possibly incremented) underflow counter.  `rand01` models
`random() / RAND_MAX` and `powfn` models `pow`. -/
def bz_nextaction (powfn : ℚ → ℚ → ℚ) (rand01 : ℚ) (brain : bz_brain)
    (cur_state : ℤ) (evse : Option ℚ) (mask : Option (ℕ → ℤ))
    (underflows : Option ℤ) : ℤ × bz_brain × Option ℤ :=
  let n := brain.maxactions.toNat
  let macts := bz_maxacts brain mask
  let expval : ℚ := bz_expvalOf evse
  let sumup0 := bz_sumup brain cur_state mask
  let sumup20 : ℚ := match evse with
    | some _ => bz_sumup2 powfn brain cur_state mask sumup0 macts expval
    | none => 0
  if sumup0 ≤ 1 then
    -- underflow branch (lines 369-379): increment the counter, refill the
    -- legal cells, and overwrite the totals with
    -- maxactions * starting_tokens and maxactions.
    let brain' := bz_refill brain cur_state mask
    let sumup : ℚ := (brain.maxactions : ℚ) * (brain.starting_tokens : ℚ)
    let sumup2 : ℚ := (brain.maxactions : ℚ)
    let act : ℤ := match evse with
      | some _ =>
        bz_pick (fun i => bz_expterm powfn brain' cur_state sumup macts expval i)
          mask (itrunc (bz__random rand01 sumup2)) n
      | none =>
        bz_pick (fun i => brain'.states (bz_rowIdx brain' cur_state i))
          mask (itrunc (bz__random rand01 sumup)) n
    (act, brain', underflows.map (fun u => u + 1))
  else
    let act : ℤ := match evse with
      | some _ =>
        bz_pick (fun i => bz_expterm powfn brain cur_state sumup0 macts expval i)
          mask (itrunc (bz__random rand01 sumup20)) n
      | none =>
        bz_pick (fun i => brain.states (bz_rowIdx brain cur_state i))
          mask (itrunc (bz__random rand01 sumup0)) n
    (act, brain, underflows)

/-- Modelled from the spec: the C preprocessor symbol `TOKENMIN` used by
`bz_learnstateaction` is not defined in the provided sources (no header in
`src/` defines it).  The spec describes it as a small positive floor and
its affine-update test uses `floor = 0.01`, so it is modelled as `1/100`. -/
def TOKENMIN : ℚ := 1 / 100

/-- `bz_learnstateaction` from `bzerker.c` (lines 463-486): the affine
update `add + multiply * w` followed by the clamp
`if (w <= TOKENMIN) w = TOKENMIN`.  The `mask` and `on_empty` arguments
are accepted but unused (the mask-dependent code is inside
`#ifdef NEVERMORE`). -/
def bz_learnstateaction (brain : bz_brain) (state action : ℤ)
    (mask : Option (ℕ → ℤ)) (add multiply : ℚ) (on_empty : Option ℤ) :
    bz_brain :=
  let idx := brain.maxactions * state + action
  let w := add + multiply * brain.states idx
  let w' := if w ≤ TOKENMIN then TOKENMIN else w
  { brain with states := fun j => if j = idx then w' else brain.states j }

/-- A chain element (`bz__chel` in `bzerker.c`): a recorded
(state, action) pair with the copy of the legality mask that was in force
(copied by `bz_addtochain`; `next` pointers become the enclosing list). -/
structure bz__chel where
  state : ℤ
  action : ℤ
  mask : Option (ℕ → ℤ)

/-- A chain (`bz_chain`): `chels` is the linked list with the most
recently added element first. -/
structure bz_chain where
  totalcount : ℤ
  chels : List bz__chel
  brain : bz_brain

/-- `bz_newchain` from `bzerker.c` (lines 407-414). -/
def bz_newchain (brain : bz_brain) : bz_chain :=
  { totalcount := 0, chels := [], brain := brain }

/-- `bz_addtochain` from `bzerker.c` (lines 417-431): prepend the new
element (the C code pushes on the front of the linked list) and bump
`totalcount`.  The mask, when present, is copied into the element. -/
def bz_addtochain (chain : bz_chain) (state action : ℤ)
    (mask : Option (ℕ → ℤ)) : bz_chain :=
  { chain with
      chels := { state := state, action := action, mask := mask } :: chain.chels
      totalcount := chain.totalcount + 1 }

/-- `bz_truncatechain` from `bzerker.c` (lines 435-461).  The C loop
`for (icount = 1; icount < count; icount++)` advances `count - 1` times
from the head (zero times when `count ≤ 1`), returning `0` unchanged if
it runs off the end (which happens exactly when the list has at most
`count - 1` elements); otherwise it cuts after the element reached,
keeping the first `(count - 1) + 1` elements and freeing (and counting)
the rest.  `totalcount` is not updated by the C code. -/
def bz_truncatechain (chain : bz_chain) (count : ℤ) : bz_chain × ℤ :=
  match chain.chels with
  | [] => (chain, 0)
  | _ :: _ =>
    let k := (count - 1).toNat
    if chain.chels.length ≤ k then (chain, 0)
    else ({ chain with chels := chain.chels.take (k + 1) },
          (chain.chels.length : ℤ) - (k + 1))

/-- `bz_learnchain` from `bzerker.c` (lines 488-497): apply
`bz_learnstateaction` to each recorded element from the head of the list
onward. -/
def bz_learnchain (brain : bz_brain) (chain : bz_chain)
    (add multiply : ℚ) (on_empty : Option ℤ) : bz_brain :=
  chain.chels.foldl
    (fun b c => bz_learnstateaction b c.state c.action c.mask add multiply
      on_empty) brain

/-- The weight-floor invariant of the spec's data model: every weight of a
valid (state, action) cell is at least `TOKENMIN`. -/
def WeightFloor (brain : bz_brain) : Prop :=
  ∀ s a : ℤ, 0 ≤ s → s < brain.maxstates → 0 ≤ a → a < brain.maxactions →
    TOKENMIN ≤ brain.states (brain.maxactions * s + a)

/-- The brain actually carried out of `bz_nextaction`: refilled on the
underflow branch, untouched otherwise. -/
def bz_brainUsed (brain : bz_brain) (cur_state : ℤ)
    (mask : Option (ℕ → ℤ)) : bz_brain :=
  if bz_sumup brain cur_state mask ≤ 1 then bz_refill brain cur_state mask
  else brain

/-- The value of the C variable `sumup` at the sampling phase of
`bz_nextaction`: overwritten with `maxactions * starting_tokens` on the
underflow branch. -/
def bz_sumupUsed (brain : bz_brain) (cur_state : ℤ)
    (mask : Option (ℕ → ℤ)) : ℚ :=
  if bz_sumup brain cur_state mask ≤ 1
  then (brain.maxactions : ℚ) * (brain.starting_tokens : ℚ)
  else bz_sumup brain cur_state mask

/-- The value of the C variable `sumup2` at the sampling phase of
`bz_nextaction`: overwritten with `maxactions` on the underflow branch. -/
def bz_sumup2Used (powfn : ℚ → ℚ → ℚ) (brain : bz_brain) (cur_state : ℤ)
    (mask : Option (ℕ → ℤ)) (expval : ℚ) : ℚ :=
  if bz_sumup brain cur_state mask ≤ 1 then (brain.maxactions : ℚ)
  else bz_sumup2 powfn brain cur_state mask (bz_sumup brain cur_state mask)
    (bz_maxacts brain mask) expval

/-- The quantity subtracted at index `i` of the sampling walk: the raw
weight on the linear path, the exponentiated relative weight when `evse`
is supplied. -/
def bz_walkTerm (powfn : ℚ → ℚ → ℚ) (brain' : bz_brain) (cur_state : ℤ)
    (evse : Option ℚ) (sumupUsed : ℚ) (macts : ℕ) : ℕ → ℚ :=
  match evse with
  | none => fun i => brain'.states (bz_rowIdx brain' cur_state i)
  | some e => fun i => bz_expterm powfn brain' cur_state sumupUsed macts e i

/-- The bound handed to `bz__random`: `sumup` on the linear path,
`sumup2` on the exponentiated path. -/
def bz_drawMax (evse : Option ℚ) (sumupUsed sumup2Used : ℚ) : ℚ :=
  match evse with
  | none => sumupUsed
  | some _ => sumup2Used

/-- The running value of the integer variable `myrandom` of
`bz_nextaction` if the sampling loop were run without early exit:
`bz_wseq t mask m i` is its value on arrival at loop index `i`. -/
def bz_wseq (t : ℕ → ℚ) (mask : Option (ℕ → ℤ)) (m : ℤ) : ℕ → ℤ
  | 0 => m
  | i + 1 =>
    if legalAt mask i = true
    then itrunc ((bz_wseq t mask m i : ℚ) - t i)
    else bz_wseq t mask m i

-- Concrete instances used by the counterexample and witness theorems.

/-- A placeholder for `pow`; the calls below all take the `evse = NULL`
path, which never consults it. -/
def cexPow : ℚ → ℚ → ℚ := fun _ _ => 0

/-- A mask forbidding action 0 and permitting every other action. -/
def m01 : ℕ → ℤ := fun i => if i = 0 then -1 else 1

/-- A mask forbidding every action. -/
def mNeg : ℕ → ℤ := fun _ => -1

/-- A 1-state 2-action brain whose row weights have decayed to 0.3
each, so that a masked call underflows. -/
def B1 : bz_brain :=
  { braintype := 0, maxstates := 1, maxactions := 2, starting_tokens := 10
    states := fun idx => if idx = 0 then 3 / 10 else
      if idx = 1 then 3 / 10 else 0 }

/-- A 1-state 3-action brain whose row weights have decayed to 0.1
each. -/
def B4 : bz_brain :=
  { braintype := 0, maxstates := 1, maxactions := 3, starting_tokens := 10
    states := fun _ => 1 / 10 }

/-- A fresh 1-state 2-action brain with 10 tokens per cell. -/
def B7 : bz_brain :=
  { braintype := 0, maxstates := 1, maxactions := 2, starting_tokens := 10
    states := fun _ => 10 }

/-- A fresh 2-state 2-action brain with 10 tokens per cell. -/
def B2w : bz_brain :=
  { braintype := 0, maxstates := 2, maxactions := 2, starting_tokens := 10
    states := fun _ => 10 }

/-- A 1-state 1-action brain whose single weight is 5 (the spec's first
affine-update example). -/
def B5 : bz_brain :=
  { braintype := 0, maxstates := 1, maxactions := 1, starting_tokens := 10
    states := fun _ => 5 }

/-- A 1-state 1-action brain whose single weight is 0.5 (the spec's
clamping example). -/
def Bhalf : bz_brain :=
  { braintype := 0, maxstates := 1, maxactions := 1, starting_tokens := 10
    states := fun _ => 1 / 2 }

/-- A one-element chain over `B7`. -/
def ch1 : bz_chain := bz_addtochain (bz_newchain B7) 0 1 none

/-- The spec's truncation example: entries for states 1..5 appended in
that order (so the head of `chels` is the most recent, state 5). -/
def ch5 : bz_chain :=
  bz_addtochain (bz_addtochain (bz_addtochain (bz_addtochain
    (bz_addtochain (bz_newchain B7) 1 0 none) 2 0 none) 3 0 none)
    4 0 none) 5 0 none

/-- The subtracted-term function of the sampling walk at the concrete
call of the C4 witness (linear path, underflowing masked call on `B4`). -/
def T4 : ℕ → ℚ :=
  bz_walkTerm cexPow (bz_brainUsed B4 0 (some m01)) 0 none
    (bz_sumupUsed B4 0 (some m01)) (bz_maxacts B4 (some m01))

/-- The initial integer draw of the sampling walk at the concrete call of
the C4 witness. -/
def M4 : ℤ :=
  itrunc (bz__random (29/30)
    (bz_drawMax none (bz_sumupUsed B4 0 (some m01))
      (bz_sumup2Used cexPow B4 0 (some m01) 1)))


-- Helper lemmas about truncation toward zero.

theorem itrunc_nonpos {q : ℚ} (h : q ≤ 0) : itrunc q ≤ 0 := by
  unfold itrunc
  split
  · next h0 =>
    have hq : q = 0 := le_antisymm h h0
    simp [hq]
  · exact Int.ceil_le.mpr (by exact_mod_cast h)

theorem itrunc_le {q : ℚ} (h : 0 ≤ q) : (itrunc q : ℚ) ≤ q := by
  unfold itrunc
  rw [if_pos h]
  exact Int.floor_le q

theorem itrunc_le_of_pos {q : ℚ} (h : 0 < itrunc q) : (itrunc q : ℚ) ≤ q := by
  by_cases h0 : 0 ≤ q
  · exact itrunc_le h0
  · exfalso
    have hq : q ≤ 0 := le_of_lt (not_le.mp h0)
    exact absurd (itrunc_nonpos hq) (by omega)

-- Helper lemmas about the sampling walk.

theorem bz_walk_none_of_forbidden (t : ℕ → ℚ) (mask : Option (ℕ → ℤ)) :
    ∀ (k i : ℕ) (m : ℤ),
      (∀ j, i ≤ j → j < i + k → legalAt mask j = false) →
      bz_walk t mask m i k = none := by
  intro k
  induction k with
  | zero => intro i m _; rfl
  | succ k ih =>
    intro i m h
    have hi : legalAt mask i = false := h i le_rfl (by omega)
    simp only [bz_walk, hi, Bool.false_eq_true, if_false]
    exact ih (i + 1) m (fun j hj1 hj2 => h j (by omega) (by omega))

theorem bz_walk_mem (t : ℕ → ℚ) (mask : Option (ℕ → ℤ)) :
    ∀ (k i : ℕ) (m : ℤ) (j : ℕ), bz_walk t mask m i k = some j →
      i ≤ j ∧ j < i + k ∧ legalAt mask j = true := by
  intro k
  induction k with
  | zero => intro i m j h; simp [bz_walk] at h
  | succ k ih =>
    intro i m j h
    simp only [bz_walk] at h
    by_cases hl : legalAt mask i = true
    · rw [if_pos hl] at h
      by_cases hm : itrunc ((m : ℚ) - t i) ≤ 0
      · rw [if_pos hm] at h
        obtain rfl := Option.some.inj h
        exact ⟨le_rfl, by omega, hl⟩
      · rw [if_neg hm] at h
        obtain ⟨h1, h2, h3⟩ := ih (i + 1) _ j h
        exact ⟨by omega, by omega, h3⟩
    · rw [if_neg hl] at h
      obtain ⟨h1, h2, h3⟩ := ih (i + 1) m j h
      exact ⟨by omega, by omega, h3⟩

theorem bz_walk_hits (t : ℕ → ℚ) (mask : Option (ℕ → ℤ))
    (ht : ∀ j, legalAt mask j = true → 0 ≤ t j) :
    ∀ (k i : ℕ) (m : ℤ),
      ((m : ℚ) ≤ ∑ j ∈ Finset.range k,
        if legalAt mask (i + j) = true then t (i + j) else 0) →
      (∃ j ∈ Finset.range k, legalAt mask (i + j) = true) →
      ∃ j, bz_walk t mask m i k = some j := by
  intro k
  induction k with
  | zero => intro i m _ hex; simp at hex
  | succ k ih =>
    intro i m hsum hex
    have hsplit : (∑ j ∈ Finset.range (k + 1),
          if legalAt mask (i + j) = true then t (i + j) else 0)
        = (∑ j ∈ Finset.range k,
            if legalAt mask (i + (j + 1)) = true then t (i + (j + 1)) else 0)
          + (if legalAt mask (i + 0) = true then t (i + 0) else 0) :=
      Finset.sum_range_succ' _ k
    have hre : (∑ j ∈ Finset.range k,
          if legalAt mask (i + (j + 1)) = true then t (i + (j + 1)) else 0)
        = ∑ j ∈ Finset.range k,
            if legalAt mask ((i + 1) + j) = true then t ((i + 1) + j) else 0 :=
      Finset.sum_congr rfl (fun j _ => by
        rw [show i + (j + 1) = (i + 1) + j from by omega])
    by_cases hl : legalAt mask i = true
    · by_cases hm : itrunc ((m : ℚ) - t i) ≤ 0
      · exact ⟨i, by simp [bz_walk, hl, hm]⟩
      · have hmpos : 0 < itrunc ((m : ℚ) - t i) := by omega
        have htail : ∃ j ∈ Finset.range k, legalAt mask ((i + 1) + j) = true := by
          by_contra hno
          push_neg at hno
          have hTz : (∑ j ∈ Finset.range k,
              if legalAt mask ((i + 1) + j) = true then t ((i + 1) + j) else 0)
              = 0 :=
            Finset.sum_eq_zero (fun j hj => by
              rw [if_neg (by simpa using hno j hj)])
          have hmt : (m : ℚ) ≤ t i := by
            rw [hsplit, hre, hTz] at hsum
            simpa [hl] using hsum
          have : itrunc ((m : ℚ) - t i) ≤ 0 := itrunc_nonpos (by linarith)
          omega
        have hlt : (itrunc ((m : ℚ) - t i) : ℚ) ≤ (m : ℚ) - t i :=
          itrunc_le_of_pos hmpos
        have hsum' : ((itrunc ((m : ℚ) - t i) : ℤ) : ℚ)
            ≤ ∑ j ∈ Finset.range k,
                if legalAt mask ((i + 1) + j) = true then t ((i + 1) + j) else 0 := by
          rw [hsplit, hre] at hsum
          simp only [hl, if_true, Nat.add_zero] at hsum
          have hfin : (m : ℚ) - t i
              ≤ ∑ j ∈ Finset.range k,
                  if legalAt mask ((i + 1) + j) = true then t ((i + 1) + j) else 0 := by
            simpa using sub_le_sub_right hsum (t i)
          linarith
        obtain ⟨j, hj⟩ := ih (i + 1) (itrunc ((m : ℚ) - t i)) hsum' htail
        exact ⟨j, by simp [bz_walk, hl, hm, hj]⟩
    · have hS : (∑ j ∈ Finset.range (k + 1),
          if legalAt mask (i + j) = true then t (i + j) else 0)
          = ∑ j ∈ Finset.range k,
              if legalAt mask ((i + 1) + j) = true then t ((i + 1) + j) else 0 := by
        rw [hsplit, hre]
        simp [hl]
      have htail : ∃ j ∈ Finset.range k, legalAt mask ((i + 1) + j) = true := by
        obtain ⟨j, hj, hjl⟩ := hex
        rcases Nat.eq_zero_or_pos j with rfl | hjpos
        · simp only [Nat.add_zero] at hjl
          exact absurd hjl (by simp [hl])
        · refine ⟨j - 1, Finset.mem_range.mpr (by
            have := Finset.mem_range.mp hj
            omega), ?_⟩
          rw [show (i + 1) + (j - 1) = i + j from by omega]
          exact hjl
      obtain ⟨j, hj⟩ := ih (i + 1) m (by rw [← hS]; exact hsum) htail
      exact ⟨j, by simp [bz_walk, hl, hj]⟩

theorem bz_walk_wseq (t : ℕ → ℚ) (mask : Option (ℕ → ℤ)) (m : ℤ) :
    ∀ (k i : ℕ),
      (bz_walk t mask (bz_wseq t mask m i) i k = none →
        ∀ l, i ≤ l → l < i + k → legalAt mask l = true →
          0 < bz_wseq t mask m (l + 1))
      ∧ (∀ j, bz_walk t mask (bz_wseq t mask m i) i k = some j →
          legalAt mask j = true ∧ i ≤ j ∧ j < i + k ∧
          bz_wseq t mask m (j + 1) ≤ 0 ∧
          ∀ l, i ≤ l → l < j → legalAt mask l = true →
            0 < bz_wseq t mask m (l + 1)) := by
  intro k
  induction k with
  | zero =>
    intro i
    constructor
    · intro _ l h1 h2 _; omega
    · intro j h; simp [bz_walk] at h
  | succ k ih =>
    intro i
    by_cases hl : legalAt mask i = true
    · have hstep : bz_wseq t mask m (i + 1)
          = itrunc ((bz_wseq t mask m i : ℚ) - t i) := by
        simp [bz_wseq, hl]
      by_cases hm : bz_wseq t mask m (i + 1) ≤ 0
      · have hw : bz_walk t mask (bz_wseq t mask m i) i (k + 1) = some i := by
          rw [hstep] at hm
          simp [bz_walk, hl, hm]
        constructor
        · intro hnone; rw [hw] at hnone; cases hnone
        · intro j hj
          rw [hw] at hj
          obtain rfl := Option.some.inj hj
          exact ⟨hl, le_rfl, by omega, hm, fun l h1 h2 _ => by omega⟩
      · have hw : bz_walk t mask (bz_wseq t mask m i) i (k + 1)
            = bz_walk t mask (bz_wseq t mask m (i + 1)) (i + 1) k := by
          rw [hstep]
          rw [hstep] at hm
          simp [bz_walk, hl, hm]
        have hpos : 0 < bz_wseq t mask m (i + 1) := by omega
        constructor
        · intro hnone l h1 h2 h3
          rcases Nat.eq_or_lt_of_le h1 with rfl | h1'
          · exact hpos
          · exact (ih (i + 1)).1 (by rw [← hw]; exact hnone) l (by omega)
              (by omega) h3
        · intro j hj
          obtain ⟨g1, g2, g3, g4, g5⟩ := (ih (i + 1)).2 j (by rw [← hw]; exact hj)
          refine ⟨g1, by omega, by omega, g4, ?_⟩
          intro l h1 h2 h3
          rcases Nat.eq_or_lt_of_le h1 with rfl | h1'
          · exact hpos
          · exact g5 l (by omega) h2 h3
    · have hstep : bz_wseq t mask m (i + 1) = bz_wseq t mask m i := by
        simp [bz_wseq, hl]
      have hw : bz_walk t mask (bz_wseq t mask m i) i (k + 1)
          = bz_walk t mask (bz_wseq t mask m (i + 1)) (i + 1) k := by
        rw [hstep]
        simp [bz_walk, hl]
      constructor
      · intro hnone l h1 h2 h3
        rcases Nat.eq_or_lt_of_le h1 with rfl | h1'
        · exact absurd h3 (by simp [hl])
        · exact (ih (i + 1)).1 (by rw [← hw]; exact hnone) l (by omega)
            (by omega) h3
      · intro j hj
        obtain ⟨g1, g2, g3, g4, g5⟩ := (ih (i + 1)).2 j (by rw [← hw]; exact hj)
        refine ⟨g1, by omega, by omega, g4, ?_⟩
        intro l h1 h2 h3
        rcases Nat.eq_or_lt_of_le h1 with rfl | h1'
        · exact absurd h3 (by simp [hl])
        · exact g5 l (by omega) h2 h3

theorem bz_pick_spec (t : ℕ → ℚ) (mask : Option (ℕ → ℤ)) (m0 : ℤ) (n : ℕ) :
    (∃ j : ℕ, j < n ∧ legalAt mask j = true ∧
      bz_wseq t mask m0 (j + 1) ≤ 0 ∧
      (∀ l, l < j → legalAt mask l = true → 0 < bz_wseq t mask m0 (l + 1)) ∧
      bz_pick t mask m0 n = (j : ℤ))
    ∨ ((∀ l, l < n → legalAt mask l = true → 0 < bz_wseq t mask m0 (l + 1)) ∧
      bz_pick t mask m0 n = 0) := by
  have h0 : bz_wseq t mask m0 0 = m0 := rfl
  have h := bz_walk_wseq t mask m0 n 0
  rw [h0] at h
  rcases hw : bz_walk t mask m0 0 n with _ | j
  · right
    refine ⟨fun l hl => h.1 hw l (by omega) (by omega), ?_⟩
    simp [bz_pick, hw]
  · left
    obtain ⟨g1, g2, g3, g4, g5⟩ := h.2 j hw
    exact ⟨j, by omega, g1, g4, fun l hl => g5 l (by omega) hl,
      by simp [bz_pick, hw]⟩

theorem bz_nextaction_eq (powfn : ℚ → ℚ → ℚ) (rand01 : ℚ) (brain : bz_brain)
    (cur_state : ℤ) (evse : Option ℚ) (mask : Option (ℕ → ℤ))
    (underflows : Option ℤ) :
    bz_nextaction powfn rand01 brain cur_state evse mask underflows =
      (bz_pick
          (bz_walkTerm powfn (bz_brainUsed brain cur_state mask) cur_state evse
            (bz_sumupUsed brain cur_state mask) (bz_maxacts brain mask)) mask
          (itrunc (bz__random rand01
            (bz_drawMax evse (bz_sumupUsed brain cur_state mask)
              (bz_sumup2Used powfn brain cur_state mask
                (bz_expvalOf evse)))))
          brain.maxactions.toNat,
        bz_brainUsed brain cur_state mask,
        if bz_sumup brain cur_state mask ≤ 1
        then underflows.map (fun u => u + 1) else underflows) := by
  unfold bz_nextaction bz_brainUsed bz_sumupUsed bz_sumup2Used bz_drawMax
    bz_walkTerm bz_expvalOf
  cases evse with
  | none =>
    by_cases h : bz_sumup brain cur_state mask ≤ 1 <;> simp [h]
  | some e =>
    by_cases h : bz_sumup brain cur_state mask ≤ 1 <;> simp [h]

-- Helper lemmas for the weight-floor invariant.

theorem TOKENMIN_le_of_pos {t : ℤ} (ht : 0 < t) : TOKENMIN ≤ (t : ℚ) := by
  have h1 : (1 : ℤ) ≤ t := ht
  have h2 : (1 : ℚ) ≤ (t : ℚ) := by exact_mod_cast h1
  unfold TOKENMIN
  linarith

theorem WeightFloor_learn (brain : bz_brain) (state action : ℤ)
    (mask : Option (ℕ → ℤ)) (add multiply : ℚ) (oe : Option ℤ)
    (h : WeightFloor brain) :
    WeightFloor (bz_learnstateaction brain state action mask add multiply oe) := by
  intro s a hs1 hs2 ha1 ha2
  unfold bz_learnstateaction
  simp only
  split
  · split
    · exact le_rfl
    · next hgt => exact le_of_lt (not_le.mp hgt)
  · exact h s a hs1 hs2 ha1 ha2

theorem WeightFloor_foldl (add multiply : ℚ) (oe : Option ℤ) :
    ∀ (l : List bz__chel) (b : bz_brain), WeightFloor b →
      WeightFloor (l.foldl
        (fun b c => bz_learnstateaction b c.state c.action c.mask add multiply
          oe) b) := by
  intro l
  induction l with
  | nil => intro b hb; exact hb
  | cons c rest ih =>
    intro b hb
    exact ih _ (WeightFloor_learn b c.state c.action c.mask add multiply oe hb)

theorem WeightFloor_refill (brain : bz_brain) (cur_state : ℤ)
    (mask : Option (ℕ → ℤ)) (hst : 0 < brain.starting_tokens)
    (h : WeightFloor brain) : WeightFloor (bz_refill brain cur_state mask) := by
  intro s a hs1 hs2 ha1 ha2
  unfold bz_refill
  simp only
  split
  · exact TOKENMIN_le_of_pos hst
  · exact h s a hs1 hs2 ha1 ha2

theorem WeightFloor_newbrain (ms ma t : ℤ) (ht : 0 < t) (b : bz_brain)
    (hb : bz_newbrain 0 ms ma t = some b) : WeightFloor b := by
  unfold bz_newbrain BZ_BRAIN_QUANTIZED at hb
  simp only [if_neg (by omega : ¬ (0 : ℤ) ≠ 0)] at hb
  obtain rfl := Option.some.inj hb
  intro s a hs1 hs2 ha1 ha2
  simp only at hs2 ha2 ⊢
  have hms : 0 < ms := by omega
  have hma : 0 < ma := by omega
  have hidx1 : 0 ≤ ma * s + a := by positivity
  have hidx2 : ma * s + a < ms * ma := by nlinarith
  rw [if_pos ⟨hms, hma, hidx1, hidx2⟩]
  exact TOKENMIN_le_of_pos ht

-- Helper lemma: chain learning depends only on the recorded
-- (state, action) pairs, because bz_learnstateaction ignores the mask.

theorem learnchain_foldl_eq (add multiply : ℚ) (oe : Option ℤ) :
    ∀ (l1 l2 : List bz__chel) (b : bz_brain),
      l1.map (fun c => (c.state, c.action))
        = l2.map (fun c => (c.state, c.action)) →
      l1.foldl (fun b c => bz_learnstateaction b c.state c.action c.mask add
          multiply oe) b
        = l2.foldl (fun b c => bz_learnstateaction b c.state c.action c.mask
          add multiply oe) b := by
  intro l1
  induction l1 with
  | nil =>
    intro l2 b h
    cases l2 with
    | nil => rfl
    | cons c2 t2 => simp at h
  | cons c t ih =>
    intro l2 b h
    cases l2 with
    | nil => simp at h
    | cons c2 t2 =>
      simp only [List.map_cons, List.cons.injEq, Prod.mk.injEq] at h
      obtain ⟨⟨hs, ha⟩, htail⟩ := h
      simp only [List.foldl_cons]
      rw [show bz_learnstateaction b c.state c.action c.mask add multiply oe
          = bz_learnstateaction b c2.state c2.action c2.mask add multiply oe
        from by rw [hs, ha]; rfl]
      exact ih t2 _ htail

-- Claim theorems.

/-- C3: for every brain, recorded (state, action) cell and (add, multiply)
pair, the learning update stores `max(add + multiply * old_weight, floor)`
with floor `TOKENMIN`; in particular `add = 1, multiply = 1` on a weight
of 5 yields exactly 6, and `add = -1, multiply = 1` on a weight of 0.5
with floor 0.01 yields exactly 0.01, not -0.5. -/
theorem C3_affine_update :
    (∀ (brain : bz_brain) (state action : ℤ) (mask : Option (ℕ → ℤ))
        (add multiply : ℚ) (oe : Option ℤ),
      (bz_learnstateaction brain state action mask add multiply oe).states
          (brain.maxactions * state + action)
        = max (add + multiply * brain.states
            (brain.maxactions * state + action)) TOKENMIN)
    ∧ (bz_learnstateaction B5 0 0 none 1 1 none).states 0 = 6
    ∧ (bz_learnstateaction Bhalf 0 0 none (-1) 1 none).states 0 = 1 / 100 := by
  refine ⟨?_, ?_, ?_⟩
  · intro brain state action mask add multiply oe
    unfold bz_learnstateaction
    simp only [eq_self_iff_true, if_true]
    by_cases h : add + multiply * brain.states
        (brain.maxactions * state + action) ≤ TOKENMIN
    · rw [if_pos h, max_eq_right h]
    · rw [if_neg h, max_eq_left (le_of_lt (not_le.mp h))]
  · norm_num [bz_learnstateaction, B5, TOKENMIN]
  · norm_num [bz_learnstateaction, Bhalf, TOKENMIN]

/-- C10: the result of learning from an episode record is independent of
the legality masks stored in its entries: records with identical
(state, action) sequences but arbitrary masks train a brain
identically. -/
theorem C10_mask_independence (brain : bz_brain) (add multiply : ℚ)
    (oe : Option ℤ) (c1 c2 : bz_chain)
    (h : c1.chels.map (fun c => (c.state, c.action))
      = c2.chels.map (fun c => (c.state, c.action))) :
    bz_learnchain brain c1 add multiply oe
      = bz_learnchain brain c2 add multiply oe :=
  learnchain_foldl_eq add multiply oe c1.chels c2.chels brain h

/-- C10 witness: two one-entry records with the same (state, action) pair
but different masks produce the same trained brain. -/
theorem C10_witness :
    (ch1.chels.map (fun c => (c.state, c.action))
      = (bz_addtochain (bz_newchain B7) 0 1 (some m01)).chels.map
          (fun c => (c.state, c.action)))
    ∧ bz_learnchain B7 ch1 1 1 none
      = bz_learnchain B7 (bz_addtochain (bz_newchain B7) 0 1 (some m01))
          1 1 none :=
  ⟨rfl, C10_mask_independence B7 1 1 none ch1
    (bz_addtochain (bz_newchain B7) 0 1 (some m01)) rfl⟩

/-- C8 counterexample: construction with `state_count = 0 ≤ 0` does not
fail; `bz_newbrain` returns a brain. -/
theorem C8_counterexample :
    (bz_newbrain 0 0 5 10).isSome = true ∧ (0 : ℤ) ≤ 0 := ⟨rfl, le_rfl⟩

/-- C8 amended: construction never validates the dimensions: for every
`max_states`/`max_actions` (non-positive included) a brain is returned;
the only construction failure is an unknown brain type (the C code calls
`exit(1)` there). -/
theorem C8_amended (ms ma t : ℤ) :
    (bz_newbrain 0 ms ma t).isSome = true ∧ bz_newbrain 1 ms ma t = none := by
  unfold bz_newbrain BZ_BRAIN_QUANTIZED
  norm_num

/-- C5 counterexample: truncating a one-entry record to `max_len = 0`
keeps one entry and returns 0 dropped, not (as claimed) zero entries kept
and 1 dropped. -/
theorem C5_counterexample :
    (bz_truncatechain ch1 0).2 = 0 ∧
    (bz_truncatechain ch1 0).1.chels.length = 1 ∧
    ¬((bz_truncatechain ch1 0).1.chels.length = 0 ∧
      (bz_truncatechain ch1 0).2 = 1) := by
  refine ⟨by decide, by decide, ?_⟩
  intro h
  exact absurd h.1 (by decide)

/-- C5 amended: for every record and `max_len ≥ 1`, truncation keeps
exactly the `max_len` most recently appended entries (the front segment
of the list, since `bz_addtochain` prepends), returns the number removed, and
is a no-op returning 0 when the record already has at most `max_len`
entries; for `max_len ≤ 0` on a nonempty record it instead keeps the
single most recent entry and returns `length - 1` (the C walk loop never
runs, so one element is always retained). -/
theorem C5_amended_truncate (chain : bz_chain) (count : ℤ) :
    (1 ≤ count →
      ((chain.chels.length : ℤ) ≤ count →
        bz_truncatechain chain count = (chain, 0)) ∧
      (count < (chain.chels.length : ℤ) →
        (bz_truncatechain chain count).1.chels
            = chain.chels.take count.toNat ∧
        (bz_truncatechain chain count).2
            = (chain.chels.length : ℤ) - count ∧
        (bz_truncatechain chain count).1.totalcount = chain.totalcount))
    ∧ (count ≤ 0 → chain.chels ≠ [] →
        (bz_truncatechain chain count).1.chels = chain.chels.take 1 ∧
        (bz_truncatechain chain count).2 = (chain.chels.length : ℤ) - 1) := by
  rcases hc : chain.chels with _ | ⟨c, rest⟩
  · refine ⟨fun h1 => ⟨fun _ => ?_, fun hlt => ?_⟩, fun _ hne => absurd rfl hne⟩
    · simp only [bz_truncatechain, hc]
    · simp at hlt
      omega
  · constructor
    · intro h1
      constructor
      · intro hle
        by_cases hbr : (c :: rest).length ≤ (count - 1).toNat
        · simp only [bz_truncatechain, hc]
          rw [if_pos hbr]
        · simp only [bz_truncatechain, hc]
          rw [if_neg hbr]
          congr 1
          · rw [List.take_of_length_le (by simp at hbr hle ⊢; omega), ← hc]
          · simp only [List.length_cons] at hbr hle ⊢
            push_cast
            omega
      · intro hlt
        have hbr : ¬ (c :: rest).length ≤ (count - 1).toNat := by
          simp only [List.length_cons] at hlt ⊢
          omega
        have hkk : (count - 1).toNat + 1 = count.toNat := by omega
        simp only [bz_truncatechain, hc]
        rw [if_neg hbr, hkk, ← hc]
        refine ⟨rfl, ?_, rfl⟩
        simp only [List.length_cons] at hlt ⊢
        rw [hc]
        omega
    · intro h0 _
      have hk0 : (count - 1).toNat = 0 := by omega
      have hbr : ¬ (c :: rest).length ≤ (count - 1).toNat := by
        simp only [hk0, List.length_cons]
        omega
      simp only [bz_truncatechain, hc]
      rw [if_neg hbr, hk0, ← hc]
      refine ⟨rfl, ?_⟩
      rw [hc]
      push_cast
      omega

/-- C5 witness: the spec's example record (states 1..5 appended in order)
truncated to 2 keeps the 2 most recent entries and reports 3 dropped. -/
theorem C5_witness :
    (1 : ℤ) ≤ 2 ∧ (2 : ℤ) < (ch5.chels.length : ℤ) ∧
    (bz_truncatechain ch5 2).1.chels = ch5.chels.take (2 : ℤ).toNat ∧
    (bz_truncatechain ch5 2).2 = (ch5.chels.length : ℤ) - 2 := by
  have h := ((C5_amended_truncate ch5 2).1 (by norm_num)).2 (by decide)
  exact ⟨by norm_num, by decide, h.1, h.2.1⟩

/-- C6: for every brain constructed with positive starting tokens, the
weight-floor invariant (every valid cell's weight at least `TOKENMIN`)
holds after construction and is preserved by action selection (including
the underflow refill), by each single learning update, and by learning a
whole chain. -/
theorem C6_weight_floor_invariant :
    (∀ ms ma t : ℤ, 0 < t → ∀ b : bz_brain,
      bz_newbrain 0 ms ma t = some b → WeightFloor b)
    ∧ (∀ (powfn : ℚ → ℚ → ℚ) (rand01 : ℚ) (brain : bz_brain)
        (cur_state : ℤ) (evse : Option ℚ) (mask : Option (ℕ → ℤ))
        (underflows : Option ℤ), 0 < brain.starting_tokens →
        WeightFloor brain →
        WeightFloor
          ((bz_nextaction powfn rand01 brain cur_state evse mask
            underflows).2.1))
    ∧ (∀ (brain : bz_brain) (state action : ℤ) (mask : Option (ℕ → ℤ))
        (add multiply : ℚ) (oe : Option ℤ), WeightFloor brain →
        WeightFloor (bz_learnstateaction brain state action mask add multiply
          oe))
    ∧ (∀ (brain : bz_brain) (chain : bz_chain) (add multiply : ℚ)
        (oe : Option ℤ), WeightFloor brain →
        WeightFloor (bz_learnchain brain chain add multiply oe)) := by
  refine ⟨fun ms ma t ht b hb => WeightFloor_newbrain ms ma t ht b hb,
    ?_,
    fun brain state action mask add multiply oe h =>
      WeightFloor_learn brain state action mask add multiply oe h,
    fun brain chain add multiply oe h =>
      WeightFloor_foldl add multiply oe chain.chels brain h⟩
  intro powfn rand01 brain cur_state evse mask underflows hst h
  rw [bz_nextaction_eq]
  simp only
  unfold bz_brainUsed
  split
  · exact WeightFloor_refill brain cur_state mask hst h
  · exact h

/-- C6 witness: a freshly constructed 1-state 1-action brain with 10
starting tokens satisfies the weight-floor invariant. -/
theorem C6_witness :
    (0 : ℤ) < 10 ∧
    WeightFloor ((bz_newbrain 0 1 1 10).getD
      { braintype := 0, maxstates := 0, maxactions := 0, starting_tokens := 0
        states := fun _ => 0 }) :=
  ⟨by norm_num,
    C6_weight_floor_invariant.1 1 1 10 (by norm_num) _ rfl⟩

/-- C9: a selector call that does not take the underflow branch leaves the
weight table unchanged; when the underflow branch is taken, only
mask-permitted cells of the queried state's row can change. -/
theorem C9_frame (powfn : ℚ → ℚ → ℚ) (rand01 : ℚ) (brain : bz_brain)
    (cur_state : ℤ) (evse : Option ℚ) (mask : Option (ℕ → ℤ))
    (underflows : Option ℤ) :
    (¬ bz_sumup brain cur_state mask ≤ 1 →
      (bz_nextaction powfn rand01 brain cur_state evse mask
        underflows).2.1 = brain)
    ∧ ∀ idx : ℤ,
        (∀ i : ℕ, i < brain.maxactions.toNat → legalAt mask i = true →
          idx ≠ bz_rowIdx brain cur_state i) →
        (bz_nextaction powfn rand01 brain cur_state evse mask
          underflows).2.1.states idx = brain.states idx := by
  rw [bz_nextaction_eq]
  simp only
  constructor
  · intro h
    unfold bz_brainUsed
    rw [if_neg h]
  · intro idx hidx
    unfold bz_brainUsed
    split
    · unfold bz_refill
      simp only
      rw [if_neg]
      rintro ⟨i, hi, hleg, heq⟩
      exact hidx i (Finset.mem_range.mp hi) hleg heq
    · rfl

/-- C9 witness: at a fresh brain (no underflow), the returned brain is the
input brain, and a cell outside the queried row is untouched. -/
theorem C9_witness :
    (¬ bz_sumup B7 0 none ≤ 1 ∧
      (bz_nextaction cexPow (1/2) B7 0 none none none).2.1 = B7)
    ∧ (bz_nextaction cexPow (1/2) B7 0 none none none).2.1.states (-5)
        = B7.states (-5) := by
  have hnu : ¬ bz_sumup B7 0 none ≤ 1 := by
    norm_num [bz_sumup, bz_rowIdx, legalAt, B7, Finset.sum_range_succ,
      (show ((2:ℤ)).toNat = 2 from rfl)]
  refine ⟨⟨hnu, (C9_frame cexPow (1/2) B7 0 none none none).1 hnu⟩, ?_⟩
  exact (C9_frame cexPow (1/2) B7 0 none none none).2 (-5)
    (fun i hi _ => by simp [bz_rowIdx, B7])

/-- C2 counterexample: at a masked underflowing call (one legal action out
of two, starting tokens 10), the code overwrites the sampling totals with
`maxactions * starting_tokens = 20` and `maxactions = 2`, not with the
claimed `|legal| * starting_tokens = 10` and `|legal| = 1`. -/
theorem C2_counterexample :
    bz_sumup B1 0 (some m01) ≤ 1 ∧
    bz_maxacts B1 (some m01) = 1 ∧
    (bz_maxacts B1 (some m01) : ℚ) * (B1.starting_tokens : ℚ) = 10 ∧
    bz_sumupUsed B1 0 (some m01) = 20 ∧
    ((20 : ℚ) ≠ 10) ∧
    bz_sumup2Used cexPow B1 0 (some m01) 1 = 2 ∧
    ((2 : ℚ) ≠ (bz_maxacts B1 (some m01) : ℚ)) := by
  have hs : bz_sumup B1 0 (some m01) ≤ 1 := by
    norm_num [bz_sumup, bz_rowIdx, legalAt, B1, m01, Finset.sum_range_succ,
      (show ((2:ℤ)).toNat = 2 from rfl)]
  have hm : bz_maxacts B1 (some m01) = 1 := by decide
  refine ⟨hs, hm, ?_, ?_, by norm_num, ?_, ?_⟩
  · rw [hm]
    norm_num [B1]
  · unfold bz_sumupUsed
    rw [if_pos hs]
    norm_num [B1]
  · unfold bz_sumup2Used
    rw [if_pos hs]
    norm_num [B1]
  · rw [hm]
    norm_num

/-- C2 amended: on the underflow branch the selector resets every legal
weight of the queried state's row to `starting_tokens`, increments the
supplied counter by exactly 1 (and leaves an absent counter absent), and
recomputes the sampling totals as `maxactions * starting_tokens` and
`maxactions` — the full action count, not the legal count. -/
theorem C2_amended_underflow (powfn : ℚ → ℚ → ℚ) (rand01 : ℚ)
    (brain : bz_brain) (cur_state : ℤ) (evse : Option ℚ)
    (mask : Option (ℕ → ℤ)) (underflows : Option ℤ)
    (hu : bz_sumup brain cur_state mask ≤ 1) :
    (∀ i : ℕ, i < brain.maxactions.toNat → legalAt mask i = true →
      (bz_nextaction powfn rand01 brain cur_state evse mask
        underflows).2.1.states (bz_rowIdx brain cur_state i)
        = (brain.starting_tokens : ℚ))
    ∧ (∀ u : ℤ, underflows = some u →
      (bz_nextaction powfn rand01 brain cur_state evse mask
        underflows).2.2 = some (u + 1))
    ∧ (underflows = none →
      (bz_nextaction powfn rand01 brain cur_state evse mask
        underflows).2.2 = none)
    ∧ (bz_nextaction powfn rand01 brain cur_state evse mask
        underflows).2.1 = bz_refill brain cur_state mask
    ∧ bz_sumupUsed brain cur_state mask
        = (brain.maxactions : ℚ) * (brain.starting_tokens : ℚ)
    ∧ bz_sumup2Used powfn brain cur_state mask (bz_expvalOf evse)
        = (brain.maxactions : ℚ) := by
  rw [bz_nextaction_eq]
  simp only
  refine ⟨?_, ?_, ?_, ?_, ?_, ?_⟩
  · intro i hi hleg
    unfold bz_brainUsed
    rw [if_pos hu]
    unfold bz_refill
    simp only
    rw [if_pos ⟨i, Finset.mem_range.mpr hi, hleg, rfl⟩]
  · intro u hu'
    subst hu'
    rw [if_pos hu]
    rfl
  · intro hn
    subst hn
    rw [if_pos hu]
    rfl
  · unfold bz_brainUsed
    rw [if_pos hu]
  · unfold bz_sumupUsed
    rw [if_pos hu]
  · unfold bz_sumup2Used
    rw [if_pos hu]

/-- C2 witness: at the concrete underflowing masked call, the legal cell
is reset to the 10 starting tokens and the counter goes from 7 to 8. -/
theorem C2_witness :
    bz_sumup B1 0 (some m01) ≤ 1 ∧
    (bz_nextaction cexPow (3/4) B1 0 none (some m01) (some 7)).2.1.states
      (bz_rowIdx B1 0 1) = (B1.starting_tokens : ℚ) ∧
    (bz_nextaction cexPow (3/4) B1 0 none (some m01) (some 7)).2.2
      = some 8 := by
  have hu : bz_sumup B1 0 (some m01) ≤ 1 := by
    norm_num [bz_sumup, bz_rowIdx, legalAt, B1, m01, Finset.sum_range_succ,
      (show ((2:ℤ)).toNat = 2 from rfl)]
  have h := C2_amended_underflow cexPow (3/4) B1 0 none (some m01) (some 7) hu
  exact ⟨hu, h.1 1 (by decide) (by decide), h.2.1 7 rfl⟩

/-- C7 counterexample: a call whose mask forbids both actions does not
fail: `bz_nextaction` (a total function, like the C code, which always
returns a `long`) returns action index 0. -/
theorem C7_counterexample :
    (bz_nextaction cexPow (1/2) B7 0 none (some mNeg) none).1 = 0 ∧
    legalAt (some mNeg) 0 = false ∧ legalAt (some mNeg) 1 = false := by
  refine ⟨?_, by decide, by decide⟩
  norm_num +decide [bz_nextaction, bz_sumup, bz_refill, bz_pick, bz_walk,
    bz_maxacts, bz_rowIdx, legalAt, bz__random, itrunc, B7, mNeg,
    Finset.sum_range_succ, (show ((2:ℤ)).toNat = 2 from rfl)]

/-- C7 amended: a selection whose mask forbids every action is not an
error: the legal sum is 0, the underflow branch is taken (refilling
nothing), and the walk falls through to the trailing `return 0`, so index
0 is returned and the weight table is unchanged. -/
theorem C7_amended_empty_mask (powfn : ℚ → ℚ → ℚ) (rand01 : ℚ)
    (brain : bz_brain) (cur_state : ℤ) (evse : Option ℚ)
    (underflows : Option ℤ) (f : ℕ → ℤ)
    (hall : ∀ i : ℕ, i < brain.maxactions.toNat →
      legalAt (some f) i = false) :
    (bz_nextaction powfn rand01 brain cur_state evse (some f)
      underflows).1 = 0
    ∧ (bz_nextaction powfn rand01 brain cur_state evse (some f)
        underflows).2.1.states = brain.states := by
  have hs0 : bz_sumup brain cur_state (some f) = 0 :=
    Finset.sum_eq_zero (fun i hi => by
      rw [hall i (Finset.mem_range.mp hi)]
      simp)
  have hu : bz_sumup brain cur_state (some f) ≤ 1 := by
    rw [hs0]
    norm_num
  rw [bz_nextaction_eq]
  simp only
  constructor
  · unfold bz_pick
    rw [bz_walk_none_of_forbidden _ _ brain.maxactions.toNat 0 _
      (fun j hj1 hj2 => hall j (by omega))]
    rfl
  · unfold bz_brainUsed
    rw [if_pos hu]
    unfold bz_refill
    simp only
    funext idx
    rw [if_neg]
    rintro ⟨i, hi, hleg, _⟩
    rw [hall i (Finset.mem_range.mp hi)] at hleg
    cases hleg

/-- C7 witness: at a fresh 2-state brain with an all-forbidding mask, the
selector returns 0 and the weights are untouched. -/
theorem C7_witness :
    (∀ i : ℕ, i < B2w.maxactions.toNat → legalAt (some mNeg) i = false) ∧
    (bz_nextaction cexPow (1/3) B2w 1 none (some mNeg) (some 3)).1 = 0 ∧
    (bz_nextaction cexPow (1/3) B2w 1 none (some mNeg) (some 3)).2.1.states
      = B2w.states := by
  have hall : ∀ i : ℕ, i < B2w.maxactions.toNat →
      legalAt (some mNeg) i = false := by decide
  have h := C7_amended_empty_mask cexPow (1/3) B2w 1 none (some 3) mNeg hall
  exact ⟨hall, h.1, h.2⟩

theorem bz_pick_legal (t : ℕ → ℚ) (mask : Option (ℕ → ℤ)) (m0 : ℤ) (n : ℕ)
    (ht : ∀ j, legalAt mask j = true → 0 ≤ t j)
    (hm : (m0 : ℚ) ≤ ∑ j ∈ Finset.range n,
      if legalAt mask j = true then t j else 0)
    (hleg : ∃ j ∈ Finset.range n, legalAt mask j = true) :
    ∃ j : ℕ, bz_pick t mask m0 n = (j : ℤ) ∧ j < n ∧
      legalAt mask j = true := by
  have hsum : (m0 : ℚ) ≤ ∑ j ∈ Finset.range n,
      if legalAt mask (0 + j) = true then t (0 + j) else 0 := by
    simpa using hm
  have hleg' : ∃ j ∈ Finset.range n, legalAt mask (0 + j) = true := by
    simpa using hleg
  obtain ⟨j, hj⟩ := bz_walk_hits t mask ht n 0 m0 hsum hleg'
  obtain ⟨_, hjn, hjl⟩ := bz_walk_mem t mask n 0 m0 j hj
  refine ⟨j, ?_, by omega, hjl⟩
  unfold bz_pick
  rw [hj]
  rfl

/-- C1 counterexample: a masked underflowing call returns action index 0
even though the mask forbids it (the walk exhausts the legal indices
because the refill total counts all actions, and the trailing
`return 0` ignores the mask). -/
theorem C1_counterexample :
    (bz_nextaction cexPow (3/4) B1 0 none (some m01) none).1 = 0 ∧
    legalAt (some m01) 0 = false := by
  refine ⟨?_, by decide⟩
  norm_num +decide [bz_nextaction, bz_sumup, bz_refill, bz_pick, bz_walk,
    bz_maxacts, bz_rowIdx, legalAt, bz__random, itrunc, B1, m01,
    Finset.sum_range_succ, (show ((2:ℤ)).toNat = 2 from rfl)]

/-- C1 amended: whenever the legal set is nonempty, the legal weights are
nonnegative, the random ratio lies in [0, 1], the exponentiation function
is nonnegative, and the underflow branch is not taken, the selector
returns a mask-permitted index below the action count.  (When the
underflow branch is taken with a mask that excludes index 0, or the mask forbids
everything, the fallback can return the forbidden index 0.) -/
theorem C1_amended_legal_selection (powfn : ℚ → ℚ → ℚ) (rand01 : ℚ)
    (brain : bz_brain) (cur_state : ℤ) (evse : Option ℚ)
    (mask : Option (ℕ → ℤ)) (underflows : Option ℤ)
    (hpow : ∀ b e, 0 ≤ powfn b e)
    (hw : ∀ i : ℕ, legalAt mask i = true →
      0 ≤ brain.states (bz_rowIdx brain cur_state i))
    (hr0 : 0 ≤ rand01) (hr1 : rand01 ≤ 1)
    (hnu : ¬ bz_sumup brain cur_state mask ≤ 1)
    (hleg : ∃ i ∈ Finset.range brain.maxactions.toNat,
      legalAt mask i = true) :
    0 ≤ (bz_nextaction powfn rand01 brain cur_state evse mask
        underflows).1 ∧
    (bz_nextaction powfn rand01 brain cur_state evse mask underflows).1
      < brain.maxactions ∧
    legalAt mask
      (bz_nextaction powfn rand01 brain cur_state evse mask
        underflows).1.toNat = true := by
  rw [bz_nextaction_eq]
  simp only
  have hBU : bz_brainUsed brain cur_state mask = brain := by
    unfold bz_brainUsed
    rw [if_neg hnu]
  have hSU : bz_sumupUsed brain cur_state mask
      = bz_sumup brain cur_state mask := by
    unfold bz_sumupUsed
    rw [if_neg hnu]
  rw [hBU, hSU]
  have hpos : (0 : ℚ) < bz_sumup brain cur_state mask := by
    have := not_le.mp hnu
    linarith
  cases evse with
  | none =>
    simp only [bz_walkTerm, bz_drawMax, bz_expvalOf]
    have hm : ((itrunc (bz__random rand01 (bz_sumup brain cur_state mask))) : ℚ)
        ≤ bz_sumup brain cur_state mask := by
      have h1 : (0 : ℚ) ≤ bz_sumup brain cur_state mask * rand01 :=
        mul_nonneg (le_of_lt hpos) hr0
      have h2 : bz_sumup brain cur_state mask * rand01
          ≤ bz_sumup brain cur_state mask :=
        mul_le_of_le_one_right (le_of_lt hpos) hr1
      have h3 := itrunc_le h1
      unfold bz__random
      linarith [h3]
    obtain ⟨j, hj1, hj2, hj3⟩ := bz_pick_legal
      (fun i => brain.states (bz_rowIdx brain cur_state i)) mask
      (itrunc (bz__random rand01 (bz_sumup brain cur_state mask)))
      brain.maxactions.toNat (fun j hjl => hw j hjl)
      (by unfold bz_sumup at hm; exact hm) hleg
    rw [hj1]
    refine ⟨Int.natCast_nonneg j, ?_, by simpa using hj3⟩
    have : (j : ℤ) < (brain.maxactions.toNat : ℤ) := by exact_mod_cast hj2
    omega
  | some e =>
    simp only [bz_walkTerm, bz_drawMax, bz_expvalOf]
    have hS2 : bz_sumup2Used powfn brain cur_state mask e
        = bz_sumup2 powfn brain cur_state mask
            (bz_sumup brain cur_state mask) (bz_maxacts brain mask) e := by
      unfold bz_sumup2Used
      rw [if_neg hnu]
    rw [hS2]
    have hS2nn : (0 : ℚ) ≤ bz_sumup2 powfn brain cur_state mask
        (bz_sumup brain cur_state mask) (bz_maxacts brain mask) e :=
      Finset.sum_nonneg (fun i _ => by
        split
        · exact hpow _ _
        · exact le_rfl)
    have hm : ((itrunc (bz__random rand01
          (bz_sumup2 powfn brain cur_state mask
            (bz_sumup brain cur_state mask) (bz_maxacts brain mask) e))) : ℚ)
        ≤ bz_sumup2 powfn brain cur_state mask
            (bz_sumup brain cur_state mask) (bz_maxacts brain mask) e := by
      have h1 : (0 : ℚ) ≤ bz_sumup2 powfn brain cur_state mask
          (bz_sumup brain cur_state mask) (bz_maxacts brain mask) e
            * rand01 := mul_nonneg hS2nn hr0
      have h2 : bz_sumup2 powfn brain cur_state mask
          (bz_sumup brain cur_state mask) (bz_maxacts brain mask) e * rand01
          ≤ bz_sumup2 powfn brain cur_state mask
            (bz_sumup brain cur_state mask) (bz_maxacts brain mask) e :=
        mul_le_of_le_one_right hS2nn hr1
      have h3 := itrunc_le h1
      unfold bz__random
      linarith [h3]
    obtain ⟨j, hj1, hj2, hj3⟩ := bz_pick_legal
      (fun i => bz_expterm powfn brain cur_state
        (bz_sumup brain cur_state mask) (bz_maxacts brain mask) e i) mask
      (itrunc (bz__random rand01
        (bz_sumup2 powfn brain cur_state mask
          (bz_sumup brain cur_state mask) (bz_maxacts brain mask) e)))
      brain.maxactions.toNat (fun j _ => hpow _ _)
      (by unfold bz_sumup2 at hm; exact hm) hleg
    rw [hj1]
    refine ⟨Int.natCast_nonneg j, ?_, by simpa using hj3⟩
    have : (j : ℤ) < (brain.maxactions.toNat : ℤ) := by exact_mod_cast hj2
    omega

/-- C1 witness: at a fresh unmasked brain (no underflow, both weights 10),
the selected action is a legal index below the action count. -/
theorem C1_witness :
    ¬ bz_sumup B2w 0 none ≤ 1 ∧
    (0 ≤ (bz_nextaction cexPow (1/2) B2w 0 none none none).1 ∧
      (bz_nextaction cexPow (1/2) B2w 0 none none none).1
        < B2w.maxactions ∧
      legalAt none
        (bz_nextaction cexPow (1/2) B2w 0 none none none).1.toNat
        = true) := by
  have hnu : ¬ bz_sumup B2w 0 none ≤ 1 := by
    norm_num [bz_sumup, bz_rowIdx, legalAt, B2w, Finset.sum_range_succ,
      (show ((2:ℤ)).toNat = 2 from rfl)]
  exact ⟨hnu, C1_amended_legal_selection cexPow (1/2) B2w 0 none none none
    (fun _ _ => le_refl 0) (fun i _ => by norm_num [B2w, bz_rowIdx])
    (by norm_num) (by norm_num) hnu ⟨0, by decide, rfl⟩⟩

/-- C4 counterexample: at an underflowing masked call (actions 1 and 2
legal, action 0 forbidden, refill total 30 exceeding the legal mass 20),
a draw of 29 exhausts the subtraction walk and the selector returns index
0 — not the last legal index 2 as the claim's fallback demands. -/
theorem C4_counterexample :
    (bz_nextaction cexPow (29/30) B4 0 none (some m01) none).1 = 0 ∧
    legalAt (some m01) 0 = false ∧
    legalAt (some m01) 2 = true ∧
    ((0 : ℤ) ≠ 2) := by
  refine ⟨?_, by decide, by decide, by decide⟩
  norm_num +decide [bz_nextaction, bz_sumup, bz_refill, bz_pick, bz_walk,
    bz_maxacts, bz_rowIdx, legalAt, bz__random, itrunc, B4, m01,
    Finset.sum_range_succ, (show ((3:ℤ)).toNat = 3 from rfl)]

/-- C4 amended: the sampling step draws `r = max * rand01` with `max` the
branch-dependent total, truncates it to an integer, and walks the indices
in ascending order, subtracting at each mask-permitted index the weight
(or exponentiated weight) with integer truncation at every step; the
returned index is the first legal index at which the running value is
`≤ 0`, and if no legal index satisfies this the selector returns index 0
(the trailing `return 0`), not the last legal index. -/
theorem C4_amended_sampling (powfn : ℚ → ℚ → ℚ) (rand01 : ℚ)
    (brain : bz_brain) (cur_state : ℤ) (evse : Option ℚ)
    (mask : Option (ℕ → ℤ)) (underflows : Option ℤ)
    (T : ℕ → ℚ) (M0 : ℤ)
    (hT : T = bz_walkTerm powfn (bz_brainUsed brain cur_state mask) cur_state
      evse (bz_sumupUsed brain cur_state mask) (bz_maxacts brain mask))
    (hM : M0 = itrunc (bz__random rand01
      (bz_drawMax evse (bz_sumupUsed brain cur_state mask)
        (bz_sumup2Used powfn brain cur_state mask
          (bz_expvalOf evse))))) :
    (∃ j : ℕ, j < brain.maxactions.toNat ∧ legalAt mask j = true ∧
      bz_wseq T mask M0 (j + 1) ≤ 0 ∧
      (∀ l, l < j → legalAt mask l = true → 0 < bz_wseq T mask M0 (l + 1)) ∧
      (bz_nextaction powfn rand01 brain cur_state evse mask underflows).1
        = (j : ℤ))
    ∨ ((∀ l, l < brain.maxactions.toNat → legalAt mask l = true →
        0 < bz_wseq T mask M0 (l + 1)) ∧
      (bz_nextaction powfn rand01 brain cur_state evse mask underflows).1
        = 0) := by
  rw [bz_nextaction_eq, ← hT, ← hM]
  exact bz_pick_spec T mask M0 brain.maxactions.toNat

/-- C4 witness: the amended sampling characterization at the concrete
underflowing masked call on `B4`. -/
theorem C4_witness :
    (∃ j : ℕ, j < B4.maxactions.toNat ∧ legalAt (some m01) j = true ∧
      bz_wseq T4 (some m01) M4 (j + 1) ≤ 0 ∧
      (∀ l, l < j → legalAt (some m01) l = true →
        0 < bz_wseq T4 (some m01) M4 (l + 1)) ∧
      (bz_nextaction cexPow (29/30) B4 0 none (some m01) none).1 = (j : ℤ))
    ∨ ((∀ l, l < B4.maxactions.toNat → legalAt (some m01) l = true →
        0 < bz_wseq T4 (some m01) M4 (l + 1)) ∧
      (bz_nextaction cexPow (29/30) B4 0 none (some m01) none).1 = 0) :=
  C4_amended_sampling cexPow (29/30) B4 0 none (some m01) none T4 M4 rfl rfl
